import Mathlib

/-!
Shallow embedding of the retrieval core of the University-Support-Assistant
repository (Python), together with theorems settling the frozen claims.

Modelled source files:
* `backend/scripts/ingest.py` — `chunk_text` (word chunker);
* `backend/utils/vector_math.py` — `cosine_similarity`, `top_k_similar`;
* `backend/server.py` — the session-history update performed by the
  `chat` endpoint (`sessions`, `MAX_HISTORY_PAIRS`).

Modelling conventions:
* Python strings are `List Char`; Python `str.split()` (split on runs of
  whitespace, dropping empty pieces) is `pyWords`; `" ".join` is `joinWords`.
* Python floats are modelled by exact reals `ℝ`; Python ints by `ℤ`.
* Python list slicing `xs[i:j]` (including negative-index resolution) is
  `pySlice`.
* A Python function that can raise an exception returns an `Option`;
  `none` models the raised exception.
* The unguarded `while` loop of `chunk_text` is embedded with an explicit
  fuel parameter; `none` at every fuel models non-termination.
-/

namespace UniAssist

/-- Resolution of a Python slice index `i` against a list of length `n`:
negative indices count from the end (clamped at 0), nonnegative indices are
clamped at `n`. -/
def pyIdx (n : ℕ) (i : ℤ) : ℕ :=
  if i < 0 then (↑n + i).toNat else min i.toNat n

/-- Python list slicing `xs[i:j]` with step 1. -/
def pySlice {α : Type} (xs : List α) (i j : ℤ) : List α :=
  (xs.take (pyIdx xs.length j)).drop (pyIdx xs.length i)

/-- Accumulator worker for `pyWords`: `acc` holds the (reversed) characters of
the word currently being read. -/
def pyWordsAux : List Char → List Char → List (List Char)
  | acc, [] => if acc = [] then [] else [acc.reverse]
  | acc, c :: cs =>
    if c.isWhitespace then
      if acc = [] then pyWordsAux [] cs else acc.reverse :: pyWordsAux [] cs
    else pyWordsAux (c :: acc) cs

/-- Python `text.split()`: split on runs of whitespace, no empty words. -/
def pyWords (s : List Char) : List (List Char) :=
  pyWordsAux [] s

/-- Python `" ".join(ws)`. -/
def joinWords : List (List Char) → List Char
  | [] => []
  | [w] => w
  | w :: ws => w ++ ' ' :: joinWords ws

/-- The `while start < len(words)` loop of `chunk_text`
(`backend/scripts/ingest.py`, lines 18–24), with explicit fuel.  Each
iteration appends `" ".join(words[start:start+chunk_size])`, stops when
`start + chunk_size >= len(words)`, and otherwise advances `start` by
`chunk_size - overlap`.  `none` means the fuel ran out, i.e. the Python loop
has not terminated within `fuel` iterations. -/
def chunkLoop (words : List (List Char)) (chunk_size overlap : ℤ) :
    ℤ → ℕ → Option (List (List Char))
  | start, 0 => if start < (words.length : ℤ) then none else some []
  | start, fuel + 1 =>
    if start < (words.length : ℤ) then
      if (words.length : ℤ) ≤ start + chunk_size then
        some [joinWords (pySlice words start (start + chunk_size))]
      else
        (chunkLoop words chunk_size overlap (start + (chunk_size - overlap)) fuel).map
          (fun cs => joinWords (pySlice words start (start + chunk_size)) :: cs)
    else some []

/-- `chunk_text(text, chunk_size, overlap)` from `backend/scripts/ingest.py`:
split the text into words and run the chunking loop from `start = 0`. -/
def chunk_text (text : List Char) (chunk_size overlap : ℤ) (fuel : ℕ) :
    Option (List (List Char)) :=
  chunkLoop (pyWords text) chunk_size overlap 0 fuel

/-- Word sequences of the chunks after the first, each with its leading
`ov`-word overlap removed, concatenated. -/
def dropConcat (ov : ℤ) (cs : List (List Char)) : List (List Char) :=
  (cs.map fun c => (pyWords c).drop ov.toNat).flatten

/-- Concatenation of the word sequences of a chunk list with the
`ov`-word overlap between consecutive chunks removed: the first chunk
contributes all its words, each later chunk its words minus the first `ov`. -/
def wordsConcat (ov : ℤ) (cs : List (List Char)) : List (List Char) :=
  match cs with
  | [] => []
  | c :: rest => pyWords c ++ dropConcat ov rest

/-- `np.dot` on two equal-length 1-D float vectors: the sum of pairwise
products.  (On unequal lengths the source's `np.dot` raises; that failure is
modelled in `cosine_similarity` below, where the call occurs.) -/
def dot : List ℝ → List ℝ → ℝ
  | a :: as, b :: bs => a * b + dot as bs
  | _, _ => 0

/-- Sum of squares of a vector's entries. -/
def sumSq (v : List ℝ) : ℝ :=
  dot v v

/-- `np.linalg.norm` of a 1-D vector: the Euclidean norm. -/
noncomputable def euclidNorm (v : List ℝ) : ℝ :=
  Real.sqrt (sumSq v)

/-- `cosine_similarity(vec_a, vec_b)` from `backend/utils/vector_math.py`.
The source first computes both norms, returns `0.0` if either is zero, and
only then calls `np.dot(a, b)`, which raises a `ValueError` (modelled as
`none`) when the lengths differ; otherwise it returns the quotient. -/
noncomputable def cosine_similarity (vec_a vec_b : List ℝ) : Option ℝ :=
  if euclidNorm vec_a = 0 ∨ euclidNorm vec_b = 0 then some 0
  else if vec_a.length = vec_b.length then
    some (dot vec_a vec_b / (euclidNorm vec_a * euclidNorm vec_b))
  else none

/-- A candidate document dict: its `"embedding"` entry plus its remaining
fields, kept opaque as `payload`. -/
structure Doc where
  payload : String
  embedding : List ℝ

/-- A document dict augmented with a `"score"` entry
(`{**doc, "score": ...}`). -/
structure ScoredDoc where
  doc : Doc
  score : ℝ

/-- Round a real to the nearest integer, ties to even — the rounding used by
Python's `round`. -/
noncomputable def roundHE (y : ℝ) : ℤ :=
  if Int.fract y < 1 / 2 then ⌊y⌋
  else if 1 / 2 < Int.fract y then ⌊y⌋ + 1
  else if Even ⌊y⌋ then ⌊y⌋ else ⌊y⌋ + 1

/-- Python `round(x, 6)`: round to six decimal digits, ties to even. -/
noncomputable def pyRound6 (x : ℝ) : ℝ :=
  (roundHE (x * 10 ^ 6) : ℝ) / 10 ^ 6

/-- The scoring/filter loop of `top_k_similar`
(`backend/utils/vector_math.py`, lines 36–40): for each document compute the
cosine similarity to the query, keep the document (with a `"score"` entry
rounded to 6 digits) exactly when the unrounded score is `>= threshold`.
A `none` from `cosine_similarity` (raised exception) aborts the whole call. -/
noncomputable def scoreLoop (query_vector : List ℝ) (threshold : ℝ) :
    List Doc → Option (List ScoredDoc)
  | [] => some []
  | d :: ds =>
    match cosine_similarity query_vector d.embedding with
    | none => none
    | some s =>
      match scoreLoop query_vector threshold ds with
      | none => none
      | some rest =>
        some (if threshold ≤ s then ⟨d, pyRound6 s⟩ :: rest else rest)

/-- `scored.sort(key=lambda x: x["score"], reverse=True)`: Python's stable
sort, descending by the stored (rounded) score.  A stable descending sort is
exactly insertion sort with the relation `y.score ≤ x.score`. -/
noncomputable def sortDesc (l : List ScoredDoc) : List ScoredDoc :=
  l.insertionSort (fun x y => y.score ≤ x.score)

instance : IsTotal ScoredDoc (fun x y => y.score ≤ x.score) :=
  ⟨fun a b => le_total b.score a.score⟩

instance : IsTrans ScoredDoc (fun x y => y.score ≤ x.score) :=
  ⟨fun _ _ _ hab hbc => le_trans hbc hab⟩

/-- `top_k_similar(query_vector, documents, k, threshold)` from
`backend/utils/vector_math.py`: score and filter every document, sort the
survivors by stored score descending, and return `scored[:k]`. -/
noncomputable def top_k_similar (query_vector : List ℝ) (documents : List Doc)
    (k : ℤ) (threshold : ℝ) : Option (List ScoredDoc) :=
  (scoreLoop query_vector threshold documents).map
    (fun scored => pySlice (sortDesc scored) 0 k)

/-- `MAX_HISTORY_PAIRS` from `backend/server.py`. -/
def MAX_HISTORY_PAIRS : ℕ := 5

/-- One `{"role": ..., "content": ...}` turn of a session history. -/
structure Turn where
  role : String
  content : String
deriving DecidableEq

/-- The effect of a completed `chat` call (`backend/server.py`, lines
193–204) on the `sessions` map, modelled as a partial map from session id to
turn list: read the session's history (empty when absent), append the user
turn and the assistant turn, and store `history[-(MAX_HISTORY_PAIRS * 2):]`
back under the request's session id. -/
def chatSessionUpdate (sessions : String → Option (List Turn))
    (sid userMsg reply : String) : String → Option (List Turn) :=
  fun s =>
    if s = sid then
      some (pySlice
        ((sessions sid).getD [] ++ ([⟨"user", userMsg⟩, ⟨"assistant", reply⟩] : List Turn))
        (-(MAX_HISTORY_PAIRS * 2 : ℤ))
        (((sessions sid).getD [] ++
          ([⟨"user", userMsg⟩, ⟨"assistant", reply⟩] : List Turn)).length))
    else sessions s

/-- The sliding-window invariant of the session map: every stored turn list
has at most `2 * MAX_HISTORY_PAIRS` turns. -/
def sessionInv (sessions : String → Option (List Turn)) : Prop :=
  ∀ sid l, sessions sid = some l → l.length ≤ 2 * MAX_HISTORY_PAIRS

/-! ### Helper lemmas -/

theorem pyIdx_nonneg (n : ℕ) (i : ℤ) (hi : 0 ≤ i) : pyIdx n i = min i.toNat n := by
  unfold pyIdx
  rw [if_neg (by omega)]

theorem drop_take_eq {α : Type} (xs : List α) (i j : ℕ) :
    (xs.take j).drop i = (xs.drop i).take (j - i) := by
  rcases le_or_lt i j with h | h
  · conv_rhs => rw [List.take_drop]
    rw [Nat.add_sub_cancel' h]
  · rw [Nat.sub_eq_zero_of_le (le_of_lt h), List.take_zero]
    apply List.drop_eq_nil_of_le
    rw [List.length_take]
    omega

theorem drop_min_length {α : Type} (xs : List α) (m : ℕ) :
    xs.drop (min m xs.length) = xs.drop m := by
  rcases le_or_lt m xs.length with h | h
  · rw [min_eq_left h]
  · rw [min_eq_right (le_of_lt h), List.drop_eq_nil_of_le le_rfl,
      List.drop_eq_nil_of_le (le_of_lt h)]

theorem pySlice_nonneg {α : Type} (xs : List α) (i j : ℤ) (hi : 0 ≤ i) (hj : 0 ≤ j) :
    pySlice xs i j = (xs.drop i.toNat).take (j.toNat - i.toNat) := by
  unfold pySlice
  rw [pyIdx_nonneg _ _ hi, pyIdx_nonneg _ _ hj, drop_take_eq, drop_min_length,
    List.take_eq_take]
  rw [List.length_drop]
  omega

theorem sumSq_nonneg (v : List ℝ) : 0 ≤ sumSq v := by
  unfold sumSq
  induction v with
  | nil => simp [dot]
  | cons a as ih =>
    simp only [dot]
    nlinarith [mul_self_nonneg a]

theorem euclidNorm_zero_iff (v : List ℝ) : euclidNorm v = 0 ↔ sumSq v = 0 := by
  unfold euclidNorm
  rw [Real.sqrt_eq_zero (sumSq_nonneg v)]

theorem euclidNorm_eq (v : List ℝ) (c : ℝ) (hc : 0 ≤ c) (h : sumSq v = c * c) :
    euclidNorm v = c := by
  unfold euclidNorm
  rw [h, Real.sqrt_mul_self hc]

/-! ### C8 — zero-norm similarity is 0.0, not an error -/

/-- C8: for every pair of vectors in which either vector has zero Euclidean
norm, `cosine_similarity` returns exactly `0.0` (and does not raise),
including the case of two zero vectors. -/
theorem similarity_zero_norm (a b : List ℝ)
    (h : euclidNorm a = 0 ∨ euclidNorm b = 0) :
    cosine_similarity a b = some 0 := by
  unfold cosine_similarity
  rw [if_pos h]

/-- Witness for C8: two (distinct-length) zero vectors give score `0.0`. -/
theorem similarity_zero_norm_witness :
    cosine_similarity [0] [0, 0] = some 0 :=
  similarity_zero_norm [0] [0, 0]
    (Or.inl (euclidNorm_eq [0] 0 le_rfl (by norm_num [sumSq, dot])))

/-! ### C1 — mismatched dimensions are not reliably rejected -/

/-- C1 (code evaluated at the failing input): the vectors `[0.0]` and
`[3.0, 4.0]` have differing lengths, yet `cosine_similarity` silently
returns `0.0` instead of failing: the zero-norm short-circuit fires before
`np.dot` would ever see the mismatched shapes, and no explicit
`DimensionMismatch` check exists anywhere in the function. -/
theorem similarity_mismatch_silent_value :
    cosine_similarity [0] [3, 4] = some 0 ∧
      ([0] : List ℝ).length ≠ ([3, 4] : List ℝ).length := by
  constructor
  · exact similarity_zero_norm [0] [3, 4]
      (Or.inl (euclidNorm_eq [0] 0 le_rfl (by norm_num [sumSq, dot])))
  · simp

/-! ### C2 — invalid chunking parameters are not rejected -/

theorem chunkLoop_zero_step (words : List (List Char)) (size ov : ℤ)
    (hstep : size - ov = 0) (hsz0 : 0 ≤ size) (hsz : size < (words.length : ℤ)) :
    ∀ fuel, chunkLoop words size ov 0 fuel = none := by
  intro fuel
  induction fuel with
  | zero =>
    unfold chunkLoop
    rw [if_pos (by omega)]
  | succ n ih =>
    unfold chunkLoop
    rw [if_pos (by omega)]
    rw [if_neg (by omega)]
    have harg : 0 + (size - ov) = (0 : ℤ) := by omega
    rw [harg, ih]
    rfl

/-- C2 (code evaluated at failing inputs): `chunk_text` performs no
parameter validation at all.  With `overlap = chunk_size = 2` on a 3-word
text the loop never terminates (it yields no result under any fuel, rather
than failing fast with `InvalidChunkingParameters`), and with
`chunk_size = 0`, `overlap = -1` (both invalid, one ≤ 0) it happily emits
three empty chunks without any error. -/
theorem chunk_text_invalid_params_unchecked :
    (∀ fuel, chunk_text "a b c".data 2 2 fuel = none) ∧
      chunk_text "a b c".data 0 (-1) 4 = some [[], [], []] := by
  constructor
  · exact chunkLoop_zero_step (pyWords "a b c".data) 2 2 (by norm_num)
      (by norm_num) (by decide)
  · decide

/-! ### C3 — a short text yields one chunk, but not always the original text -/

/-- Counterexample to C3 as stated: the text `"a  b"` (two spaces) is
non-empty with 2 whitespace tokens ≤ `chunk_size = 3`, the parameters are
valid (`0 < overlap = 1 < 3`), and `chunk_text` returns exactly one chunk —
but that chunk is `"a b"`, which is not equal to the original text. -/
theorem chunk_text_short_not_whole_text :
    chunk_text "a  b".data 3 1 5 = some ["a b".data] ∧ "a b".data ≠ "a  b".data := by
  decide

/-- C3 amended: for valid parameters and a text with at least one
whitespace token and at most `chunk_size` of them, `chunk_text` returns
exactly one chunk, equal to the text's whitespace tokens rejoined with
single spaces (hence equal to the original text exactly when that text is
already single-space-separated without leading/trailing whitespace). -/
theorem chunk_text_short_single_chunk (text : List Char) (size ov : ℤ) (fuel : ℕ)
    (h1 : 0 < ov) (h2 : ov < size) (hne : pyWords text ≠ [])
    (hlen : ((pyWords text).length : ℤ) ≤ size) (hf : 0 < fuel) :
    chunk_text text size ov fuel = some [joinWords (pyWords text)] := by
  obtain ⟨f, rfl⟩ : ∃ f, fuel = f + 1 := ⟨fuel - 1, by omega⟩
  unfold chunk_text chunkLoop
  have hlen0 : (0 : ℤ) < (pyWords text).length := by
    have h3 := List.length_pos.mpr hne
    exact_mod_cast h3
  rw [if_pos hlen0, if_pos (by omega : ((pyWords text).length : ℤ) ≤ 0 + size)]
  have hs : pySlice (pyWords text) 0 (0 + size) = pyWords text := by
    rw [pySlice_nonneg _ _ _ le_rfl (by omega)]
    rw [show ((0 : ℤ)).toNat = 0 from rfl, List.drop_zero]
    apply List.take_of_length_le
    omega
  rw [hs]

/-- Witness for the amended C3 at a concrete input. -/
theorem chunk_text_short_single_chunk_witness :
    chunk_text "a b".data 3 1 1 = some [joinWords (pyWords "a b".data)] :=
  chunk_text_short_single_chunk "a b".data 3 1 1 (by decide) (by decide)
    (by decide) (by decide) (by decide)

/-! ### C4 — chunk coverage -/

theorem pyWordsAux_nil_eq (acc : List Char) :
    pyWordsAux acc [] = if acc = [] then [] else [acc.reverse] := rfl

theorem pyWordsAux_cons_eq (acc : List Char) (c : Char) (cs : List Char) :
    pyWordsAux acc (c :: cs) =
      if c.isWhitespace then
        if acc = [] then pyWordsAux [] cs else acc.reverse :: pyWordsAux [] cs
      else pyWordsAux (c :: acc) cs := rfl

theorem pyWordsAux_word (w : List Char) (hw : ∀ c ∈ w, c.isWhitespace = false) :
    ∀ acc r, pyWordsAux acc (w ++ r) = pyWordsAux (w.reverse ++ acc) r := by
  induction w with
  | nil => intro acc r; simp
  | cons c w2 ih =>
    intro acc r
    have hc : c.isWhitespace = false := hw c (by simp)
    rw [List.cons_append, pyWordsAux_cons_eq, if_neg (by simp [hc]),
      ih (fun d hd => hw d (by simp [hd])) (c :: acc) r]
    congr 1
    simp

theorem pyWordsAux_stop (acc : List Char) (hacc : acc ≠ []) (r : List Char) :
    pyWordsAux acc (' ' :: r) = acc.reverse :: pyWordsAux [] r := by
  rw [pyWordsAux_cons_eq, if_pos (by decide), if_neg hacc]

theorem pyWords_join (ws : List (List Char)) (hne : ∀ w ∈ ws, w ≠ [])
    (hws : ∀ w ∈ ws, ∀ c ∈ w, c.isWhitespace = false) :
    pyWords (joinWords ws) = ws := by
  induction ws with
  | nil => rfl
  | cons w ws2 ih =>
    cases ws2 with
    | nil =>
      show pyWordsAux [] (joinWords [w]) = [w]
      have h3 : joinWords [w] = w ++ [] := by simp [joinWords]
      rw [h3, pyWordsAux_word w (hws w (by simp)) [] []]
      unfold pyWordsAux
      rw [if_neg (by simp [hne w (by simp)])]
      simp
    | cons w2 ws3 =>
      show pyWordsAux [] (joinWords (w :: w2 :: ws3)) = w :: w2 :: ws3
      have h3 : joinWords (w :: w2 :: ws3) = w ++ ' ' :: joinWords (w2 :: ws3) := rfl
      rw [h3, pyWordsAux_word w (hws w (by simp)) [] _, List.append_nil,
        pyWordsAux_stop _ (by simp [hne w (by simp)]) _]
      rw [List.reverse_reverse]
      have ih2 := ih (fun v hv => hne v (by simp [hv])) (fun v hv => hws v (by simp [hv]))
      exact congrArg (fun l => w :: l) ih2

theorem pyWordsAux_mem (s : List Char) :
    ∀ acc, (∀ c ∈ acc, c.isWhitespace = false) →
      ∀ w ∈ pyWordsAux acc s, w ≠ [] ∧ ∀ c ∈ w, c.isWhitespace = false := by
  induction s with
  | nil =>
    intro acc hacc w hw
    unfold pyWordsAux at hw
    by_cases ha : acc = []
    · rw [if_pos ha] at hw
      exact absurd hw (by simp)
    · rw [if_neg ha] at hw
      have h3 : w = acc.reverse := by simpa using hw
      subst h3
      refine ⟨by simpa using ha, fun c hc => hacc c (by simpa using hc)⟩
  | cons c cs ih =>
    intro acc hacc w hw
    unfold pyWordsAux at hw
    by_cases hc : c.isWhitespace = true
    · rw [if_pos hc] at hw
      by_cases ha : acc = []
      · rw [if_pos ha] at hw
        exact ih [] (by simp) w hw
      · rw [if_neg ha] at hw
        rcases List.mem_cons.mp hw with h3 | h3
        · subst h3
          refine ⟨by simpa using ha, fun d hd => hacc d (by simpa using hd)⟩
        · exact ih [] (by simp) w h3
    · rw [if_neg hc] at hw
      refine ih (c :: acc) ?_ w hw
      intro d hd
      rcases List.mem_cons.mp hd with h3 | h3
      · subst h3
        simpa using hc
      · exact hacc d h3

theorem pyWords_mem (s : List Char) :
    ∀ w ∈ pyWords s, w ≠ [] ∧ ∀ c ∈ w, c.isWhitespace = false :=
  pyWordsAux_mem s [] (by simp)

theorem chunkLoop_sound (words : List (List Char))
    (hW : ∀ w ∈ words, w ≠ [] ∧ ∀ c ∈ w, c.isWhitespace = false)
    (size ov : ℤ) (h1 : 0 < ov) (h2 : ov < size) :
    ∀ fuel (start : ℤ) cs, 0 ≤ start →
      chunkLoop words size ov start fuel = some cs →
      wordsConcat ov cs = words.drop start.toNat ∧
        dropConcat ov cs = words.drop (start.toNat + ov.toNat) := by
  have slice_eq : ∀ start : ℤ, 0 ≤ start →
      pySlice words start (start + size) =
        (words.drop start.toNat).take size.toNat := by
    intro start hs
    rw [pySlice_nonneg _ _ _ hs (by omega)]
    congr 1
    omega
  intro fuel
  induction fuel with
  | zero =>
    intro start cs hs hrun
    unfold chunkLoop at hrun
    by_cases h : start < (words.length : ℤ)
    · rw [if_pos h] at hrun
      exact absurd hrun (by simp)
    · rw [if_neg h] at hrun
      obtain rfl : cs = [] := (Option.some.inj hrun).symm
      have hd : words.drop start.toNat = [] :=
        List.drop_eq_nil_of_le (by omega)
      have hd2 : words.drop (start.toNat + ov.toNat) = [] :=
        List.drop_eq_nil_of_le (by omega)
      exact ⟨by rw [hd]; rfl, by rw [hd2]; rfl⟩
  | succ n ih =>
    intro start cs hs hrun
    unfold chunkLoop at hrun
    by_cases h : start < (words.length : ℤ)
    · rw [if_pos h] at hrun
      have hsl := slice_eq start hs
      have hsub : ∀ w ∈ pySlice words start (start + size),
          w ≠ [] ∧ ∀ c ∈ w, c.isWhitespace = false := by
        intro w hw
        rw [hsl] at hw
        exact hW w (List.drop_subset _ _ (List.take_subset _ _ hw))
      have hnonempty : pySlice words start (start + size) ≠ [] := by
        rw [hsl]
        apply List.length_pos.mp
        rw [List.length_take, List.length_drop]
        omega
      have hround : pyWords (joinWords (pySlice words start (start + size))) =
          pySlice words start (start + size) :=
        pyWords_join _ (fun w hw => (hsub w hw).1) (fun w hw => (hsub w hw).2)
      by_cases h4 : (words.length : ℤ) ≤ start + size
      · rw [if_pos h4] at hrun
        obtain rfl : cs = [joinWords (pySlice words start (start + size))] :=
          (Option.some.inj hrun).symm
        constructor
        · show pyWords (joinWords (pySlice words start (start + size))) ++
            dropConcat ov [] = words.drop start.toNat
          rw [hround, hsl]
          show (words.drop start.toNat).take size.toNat ++ [] = _
          rw [List.append_nil]
          apply List.take_of_length_le
          rw [List.length_drop]
          omega
        · show (pyWords (joinWords (pySlice words start (start + size)))).drop ov.toNat
            ++ dropConcat ov [] = words.drop (start.toNat + ov.toNat)
          rw [hround, hsl]
          show ((words.drop start.toNat).take size.toNat).drop ov.toNat ++ [] = _
          rw [List.append_nil, drop_take_eq, List.drop_drop]
          apply List.take_of_length_le
          rw [List.length_drop]
          omega
      · rw [if_neg h4] at hrun
        rcases hrec0 : chunkLoop words size ov (start + (size - ov)) n with _ | cs2
        · rw [hrec0] at hrun
          exact absurd hrun (by simp)
        · rw [hrec0] at hrun
          obtain rfl : cs = joinWords (pySlice words start (start + size)) :: cs2 :=
            (Option.some.inj hrun).symm
          obtain ⟨ih1, ih2⟩ := ih (start + (size - ov)) cs2 (by omega) hrec0
          have hstart2 : (start + (size - ov)).toNat + ov.toNat =
              start.toNat + size.toNat := by omega
          rw [hstart2] at ih2
          constructor
          · show pyWords (joinWords (pySlice words start (start + size))) ++
              dropConcat ov cs2 = words.drop start.toNat
            rw [hround, hsl, ih2]
            rw [show start.toNat + size.toNat = start.toNat + size.toNat from rfl,
              ← List.drop_drop, List.take_append_drop]
          · show (pyWords (joinWords (pySlice words start (start + size)))).drop ov.toNat
              ++ dropConcat ov cs2 = words.drop (start.toNat + ov.toNat)
            rw [hround, hsl, ih2, drop_take_eq, List.drop_drop]
            have h6 : words.drop (start.toNat + size.toNat) =
                (words.drop (start.toNat + ov.toNat)).drop (size.toNat - ov.toNat) := by
              rw [List.drop_drop]
              congr 1
              omega
            rw [h6, List.take_append_drop]
    · rw [if_neg h] at hrun
      obtain rfl : cs = [] := (Option.some.inj hrun).symm
      have hd : words.drop start.toNat = [] :=
        List.drop_eq_nil_of_le (by omega)
      have hd2 : words.drop (start.toNat + ov.toNat) = [] :=
        List.drop_eq_nil_of_le (by omega)
      exact ⟨by rw [hd]; rfl, by rw [hd2]; rfl⟩

theorem chunkLoop_total (words : List (List Char)) (size ov : ℤ)
    (h2 : ov < size) :
    ∀ (fuel : ℕ) (start : ℤ), 0 ≤ start → (words.length : ℤ) ≤ start + (fuel : ℤ) →
      ∃ cs, chunkLoop words size ov start fuel = some cs := by
  intro fuel
  induction fuel with
  | zero =>
    intro start h3 h4
    unfold chunkLoop
    rw [if_neg (by omega)]
    exact ⟨[], rfl⟩
  | succ n ih =>
    intro start h3 h4
    unfold chunkLoop
    by_cases h : start < (words.length : ℤ)
    · rw [if_pos h]
      by_cases h5 : (words.length : ℤ) ≤ start + size
      · rw [if_pos h5]
        exact ⟨_, rfl⟩
      · rw [if_neg h5]
        obtain ⟨cs, hcs⟩ := ih (start + (size - ov)) (by omega) (by push_cast at h4; omega)
        rw [hcs]
        exact ⟨_, rfl⟩
    · rw [if_neg h]
      exact ⟨[], rfl⟩

/-- C4: for every text and valid parameters (`0 < overlap < chunk_size`),
`chunk_text` terminates (fuel `len(words) + 1` suffices), and for any run
that returns chunks, concatenating the chunks' word sequences with the
`overlap`-word overlap between consecutive chunks removed reconstructs the
whitespace-tokenized word sequence of the original text exactly. -/
theorem chunk_coverage (text : List Char) (size ov : ℤ)
    (h1 : 0 < ov) (h2 : ov < size) :
    (∃ cs, chunk_text text size ov ((pyWords text).length + 1) = some cs) ∧
      ∀ fuel cs, chunk_text text size ov fuel = some cs →
        wordsConcat ov cs = pyWords text := by
  constructor
  · exact chunkLoop_total (pyWords text) size ov h2 _ 0 le_rfl (by omega)
  · intro fuel cs hrun
    have h3 := (chunkLoop_sound (pyWords text) (pyWords_mem text) size ov h1 h2
      fuel 0 cs le_rfl hrun).1
    simpa using h3

/-- Witness for C4 at a concrete input. -/
theorem chunk_coverage_witness :
    (∃ cs, chunk_text "a b c".data 2 1 ((pyWords "a b c".data).length + 1) = some cs) ∧
      ∀ fuel cs, chunk_text "a b c".data 2 1 fuel = some cs →
        wordsConcat 1 cs = pyWords "a b c".data :=
  chunk_coverage "a b c".data 2 1 (by decide) (by decide)

/-! ### C5 — inclusive threshold filter -/

theorem scoreLoop_nil (q : List ℝ) (t : ℝ) : scoreLoop q t [] = some [] := rfl

theorem scoreLoop_cons (q : List ℝ) (t : ℝ) (d : Doc) (ds : List Doc) :
    scoreLoop q t (d :: ds) =
      match cosine_similarity q d.embedding with
      | none => none
      | some s =>
        match scoreLoop q t ds with
        | none => none
        | some rest =>
          some (if t ≤ s then ⟨d, pyRound6 s⟩ :: rest else rest) := rfl

theorem scoreLoop_mem (q : List ℝ) (t : ℝ) (docs : List Doc)
    (out : List ScoredDoc) (hrun : scoreLoop q t docs = some out) :
    ∀ e ∈ out, e.doc ∈ docs ∧
      ∃ s, cosine_similarity q e.doc.embedding = some s ∧ t ≤ s ∧
        e.score = pyRound6 s := by
  induction docs generalizing out with
  | nil =>
    obtain rfl : out = [] := (Option.some.inj hrun).symm
    intro e he
    exact absurd he (by simp)
  | cons d0 ds ih =>
    rcases hc0 : cosine_similarity q d0.embedding with _ | s0
    · have hnone : scoreLoop q t (d0 :: ds) = none := by rw [scoreLoop_cons, hc0]
      rw [hnone] at hrun
      exact absurd hrun (by simp)
    · rcases hr0 : scoreLoop q t ds with _ | rest
      · have hnone : scoreLoop q t (d0 :: ds) = none := by
          rw [scoreLoop_cons, hc0, hr0]
        rw [hnone] at hrun
        exact absurd hrun (by simp)
      · have heq : scoreLoop q t (d0 :: ds) =
            some (if t ≤ s0 then ⟨d0, pyRound6 s0⟩ :: rest else rest) := by
          rw [scoreLoop_cons, hc0, hr0]
        rw [heq] at hrun
        obtain rfl : out = if t ≤ s0 then ⟨d0, pyRound6 s0⟩ :: rest else rest :=
          (Option.some.inj hrun).symm
        intro e he
        by_cases hts : t ≤ s0
        · rw [if_pos hts] at he
          rcases List.mem_cons.mp he with rfl | he2
          · exact ⟨by simp, s0, hc0, hts, rfl⟩
          · obtain ⟨hmem, hex⟩ := ih rest hr0 e he2
            exact ⟨by simp [hmem], hex⟩
        · rw [if_neg hts] at he
          obtain ⟨hmem, hex⟩ := ih rest hr0 e he
          exact ⟨by simp [hmem], hex⟩

theorem scoreLoop_mem_of (q : List ℝ) (t : ℝ) (docs : List Doc)
    (out : List ScoredDoc) (hrun : scoreLoop q t docs = some out)
    (d : Doc) (hd : d ∈ docs) (s : ℝ)
    (hs : cosine_similarity q d.embedding = some s) (hts : t ≤ s) :
    (⟨d, pyRound6 s⟩ : ScoredDoc) ∈ out := by
  induction docs generalizing out with
  | nil => exact absurd hd (by simp)
  | cons d0 ds ih =>
    rcases hc0 : cosine_similarity q d0.embedding with _ | s0
    · have hnone : scoreLoop q t (d0 :: ds) = none := by rw [scoreLoop_cons, hc0]
      rw [hnone] at hrun
      exact absurd hrun (by simp)
    · rcases hr0 : scoreLoop q t ds with _ | rest
      · have hnone : scoreLoop q t (d0 :: ds) = none := by
          rw [scoreLoop_cons, hc0, hr0]
        rw [hnone] at hrun
        exact absurd hrun (by simp)
      · have heq : scoreLoop q t (d0 :: ds) =
            some (if t ≤ s0 then ⟨d0, pyRound6 s0⟩ :: rest else rest) := by
          rw [scoreLoop_cons, hc0, hr0]
        rw [heq] at hrun
        obtain rfl : out = if t ≤ s0 then ⟨d0, pyRound6 s0⟩ :: rest else rest :=
          (Option.some.inj hrun).symm
        rcases List.mem_cons.mp hd with rfl | hd2
        · have hss : s0 = s := by
            rw [hs] at hc0
            exact (Option.some.inj hc0).symm
          subst hss
          rw [if_pos hts]
          exact List.mem_cons_self _ _
        · have hmem := ih rest hr0 hd2
          by_cases hts0 : t ≤ s0
          · rw [if_pos hts0]
            exact List.mem_cons_of_mem _ hmem
          · rw [if_neg hts0]
            exact hmem

/-- C5: in `top_k_similar`'s filter stage (`scoreLoop`), every candidate
whose unrounded similarity score is `>= threshold` — including a score
exactly equal to the threshold — is retained (with its rounded score), and
every candidate whose score is below the threshold is excluded. -/
theorem threshold_filter_inclusive (q : List ℝ) (t : ℝ) (docs : List Doc)
    (out : List ScoredDoc) (hrun : scoreLoop q t docs = some out)
    (d : Doc) (hd : d ∈ docs) (s : ℝ)
    (hs : cosine_similarity q d.embedding = some s) :
    (t ≤ s → (⟨d, pyRound6 s⟩ : ScoredDoc) ∈ out) ∧
      (s < t → ∀ e ∈ out, e.doc ≠ d) := by
  constructor
  · intro hts
    exact scoreLoop_mem_of q t docs out hrun d hd s hs hts
  · intro hst e he hed
    obtain ⟨_, s2, hs2, hts2, _⟩ := scoreLoop_mem q t docs out hrun e he
    rw [hed, hs] at hs2
    have : s = s2 := Option.some.inj hs2
    subst this
    exact absurd hts2 (not_le.mpr hst)

/-! ### C6 — the k-cap -/

theorem top_k_similar_eq (q : List ℝ) (docs : List Doc) (k : ℤ) (t : ℝ)
    (scored : List ScoredDoc) (hsc : scoreLoop q t docs = some scored) :
    top_k_similar q docs k t = some (pySlice (sortDesc scored) 0 k) := by
  unfold top_k_similar
  rw [hsc]
  rfl

theorem sortDesc_length (l : List ScoredDoc) : (sortDesc l).length = l.length :=
  (List.perm_insertionSort _ _).length_eq

/-- C6: for `k ≥ 1`, `top_k_similar` returns at most `k` entries, and
returns fewer than `k` only when fewer than `k` candidates passed the
threshold filter (in that case it returns all of them; in particular the
output is empty — and still a successful, non-error result — exactly when
no candidate passes). -/
theorem top_k_cap (q : List ℝ) (docs : List Doc) (k : ℤ) (t : ℝ)
    (out scored : List ScoredDoc) (hk : 1 ≤ k)
    (hsc : scoreLoop q t docs = some scored)
    (hrun : top_k_similar q docs k t = some out) :
    out.length ≤ k.toNat ∧ (out.length < k.toNat → out.length = scored.length) := by
  rw [top_k_similar_eq q docs k t scored hsc] at hrun
  obtain rfl : out = pySlice (sortDesc scored) 0 k := (Option.some.inj hrun).symm
  rw [pySlice_nonneg _ _ _ le_rfl (by omega),
    show ((0 : ℤ)).toNat = 0 from rfl, List.drop_zero, Nat.sub_zero,
    List.length_take, sortDesc_length]
  omega

/-! ### C7 — output sorted by score descending -/

/-- C7: the output of `top_k_similar` is sorted by stored score in
descending order: for all positions `i < j` of the output,
`output[j].score ≤ output[i].score`. -/
theorem top_k_descending (q : List ℝ) (docs : List Doc) (k : ℤ) (t : ℝ)
    (out : List ScoredDoc) (hrun : top_k_similar q docs k t = some out)
    (i j : ℕ) (hij : i < j) (hi : i < out.length) (hj : j < out.length) :
    (out.get ⟨j, hj⟩).score ≤ (out.get ⟨i, hi⟩).score := by
  rcases hsc : scoreLoop q t docs with _ | scored
  · unfold top_k_similar at hrun
    rw [hsc] at hrun
    exact absurd hrun (by simp)
  · rw [top_k_similar_eq q docs k t scored hsc] at hrun
    have hout : out = pySlice (sortDesc scored) 0 k := (Option.some.inj hrun).symm
    have hsorted : List.Pairwise (fun x y : ScoredDoc => y.score ≤ x.score)
        (sortDesc scored) :=
      List.sorted_insertionSort _ scored
    have hpw : List.Pairwise (fun x y : ScoredDoc => y.score ≤ x.score) out := by
      rw [hout]
      unfold pySlice
      exact List.Pairwise.sublist
        ((List.drop_sublist _ _).trans (List.take_sublist _ _)) hsorted
    exact List.pairwise_iff_get.mp hpw ⟨i, hi⟩ ⟨j, hj⟩ hij

/-! ### C9 — the session history sliding-window cap -/

theorem pySlice_neg_start {α : Type} (l : List α) (i : ℤ) (hi : i < 0) :
    pySlice l i (l.length : ℤ) = l.drop ((l.length : ℤ) + i).toNat := by
  unfold pySlice pyIdx
  rw [if_neg (show ¬((l.length : ℤ) < 0) by omega), if_pos hi]
  have h1 : min ((l.length : ℤ)).toNat l.length = l.length := by omega
  rw [h1, List.take_length]

/-- C9: each completed `chat` call stores, under the request's session id,
a suffix of the appended history of length at most
`2 * MAX_HISTORY_PAIRS = 10` turns, and the sliding-window cap is an
invariant of the whole session map preserved by every chat call. -/
theorem chat_history_cap (sessions : String → Option (List Turn))
    (hinv : sessionInv sessions) (sid userMsg reply : String) :
    sessionInv (chatSessionUpdate sessions sid userMsg reply) ∧
      ∃ l, chatSessionUpdate sessions sid userMsg reply sid = some l ∧
        l.length ≤ 2 * MAX_HISTORY_PAIRS ∧
        l <:+ ((sessions sid).getD [] ++ [⟨"user", userMsg⟩, ⟨"assistant", reply⟩]) := by
  have hneg : (-(MAX_HISTORY_PAIRS * 2 : ℤ)) < 0 := by
    simp [MAX_HISTORY_PAIRS]
  have hstored : ∀ l2 : List Turn,
      pySlice l2 (-(MAX_HISTORY_PAIRS * 2 : ℤ)) (l2.length : ℤ) =
        l2.drop ((l2.length : ℤ) + -(MAX_HISTORY_PAIRS * 2 : ℤ)).toNat :=
    fun l2 => pySlice_neg_start l2 _ hneg
  have hcap : ∀ l2 : List Turn,
      (l2.drop ((l2.length : ℤ) + -(MAX_HISTORY_PAIRS * 2 : ℤ)).toNat).length ≤
        2 * MAX_HISTORY_PAIRS := by
    intro l2
    rw [List.length_drop]
    simp only [MAX_HISTORY_PAIRS]
    omega
  constructor
  · intro s l hl
    unfold chatSessionUpdate at hl
    by_cases hsid : s = sid
    · rw [if_pos hsid] at hl
      obtain rfl : l = _ := (Option.some.inj hl).symm
      rw [hstored]
      exact hcap _
    · rw [if_neg hsid] at hl
      exact hinv s l hl
  · have hupd : chatSessionUpdate sessions sid userMsg reply sid =
        some (((sessions sid).getD [] ++
            ([⟨"user", userMsg⟩, ⟨"assistant", reply⟩] : List Turn)).drop
          (((((sessions sid).getD [] ++
              ([⟨"user", userMsg⟩, ⟨"assistant", reply⟩] : List Turn)).length : ℤ) +
            -(MAX_HISTORY_PAIRS * 2 : ℤ)).toNat)) := by
      unfold chatSessionUpdate
      rw [if_pos rfl, hstored]
    exact ⟨_, hupd, hcap _, List.drop_suffix _ _⟩

/-- Witness for C9: a chat call on an empty session map stores the two new
turns and satisfies the cap. -/
theorem chat_history_cap_witness :
    sessionInv (chatSessionUpdate (fun _ => none) "s1" "hi" "there") ∧
      ∃ l, chatSessionUpdate (fun _ => none) "s1" "hi" "there" "s1" = some l ∧
        l.length ≤ 2 * MAX_HISTORY_PAIRS ∧
        l <:+ (((fun _ => (none : Option (List Turn))) "s1").getD [] ++
          [⟨"user", "hi"⟩, ⟨"assistant", "there"⟩]) :=
  chat_history_cap (fun _ => none) (fun _ _ h => nomatch h) "s1" "hi" "there"

/-! ### C10 — a stored score can round below the threshold -/

theorem pyRound6_floor (x : ℝ) (n : ℤ) (h1 : (n : ℝ) ≤ x * 10 ^ 6)
    (h2 : x * 10 ^ 6 < (n : ℝ) + 1 / 2) :
    pyRound6 x = (n : ℝ) / 10 ^ 6 := by
  unfold pyRound6 roundHE
  have hfl : ⌊x * 10 ^ 6⌋ = n := by
    rw [Int.floor_eq_iff]
    exact ⟨h1, by linarith⟩
  have hfr : Int.fract (x * 10 ^ 6) < 1 / 2 := by
    have h3 : Int.fract (x * 10 ^ 6) = x * 10 ^ 6 - (n : ℝ) := by
      rw [← Int.self_sub_floor, hfl]
    rw [h3]
    linarith
  rw [if_pos hfr, hfl]

theorem cosine_similarity_eval (a b : List ℝ) (na nb : ℝ)
    (hna : euclidNorm a = na) (hnb : euclidNorm b = nb)
    (h0a : na ≠ 0) (h0b : nb ≠ 0) (hlen : a.length = b.length) :
    cosine_similarity a b = some (dot a b / (na * nb)) := by
  unfold cosine_similarity
  rw [hna, hnb, if_neg (by tauto), if_pos hlen]

/-- C10: the filter of `top_k_similar` compares the unrounded similarity
against the threshold, while the stored score is rounded to 6 decimal
digits — so an entry's stored score can be strictly below the threshold.
Concretely, with query `[1, 0]`, one candidate with embedding `[20, 21]`
(cosine similarity exactly `20/29 ≈ 0.6896551724`) and threshold `20/29`,
the candidate passes the filter but is returned with the rounded score
`0.689655 < 20/29`. -/
theorem top_k_score_below_threshold :
    top_k_similar [1, 0] [⟨"C", [20, 21]⟩] 3 (20 / 29) =
        some [⟨⟨"C", [20, 21]⟩, 689655 / 1000000⟩] ∧
      (689655 / 1000000 : ℝ) < 20 / 29 := by
  have hround : pyRound6 (20 / 29 : ℝ) = 689655 / 1000000 := by
    have h3 := pyRound6_floor (20 / 29 : ℝ) 689655 (by norm_num) (by norm_num)
    rw [h3]
    norm_num
  constructor
  · have hna : euclidNorm [(1 : ℝ), 0] = 1 :=
      euclidNorm_eq _ 1 (by norm_num) (by norm_num [sumSq, dot])
    have hnb : euclidNorm [(20 : ℝ), 21] = 29 :=
      euclidNorm_eq _ 29 (by norm_num) (by norm_num [sumSq, dot])
    have hcos : cosine_similarity [1, 0] [20, 21] = some (20 / 29) := by
      rw [cosine_similarity_eval [1, 0] [20, 21] 1 29 hna hnb (by norm_num)
        (by norm_num) (by simp)]
      norm_num [dot]
    have hsc : scoreLoop [1, 0] (20 / 29) [⟨"C", [20, 21]⟩] =
        some [⟨⟨"C", [20, 21]⟩, pyRound6 (20 / 29)⟩] := by
      rw [scoreLoop_cons]
      have he : (⟨"C", [20, 21]⟩ : Doc).embedding = [20, 21] := rfl
      rw [he, hcos]
      show some (if (20 / 29 : ℝ) ≤ 20 / 29 then
            [(⟨⟨"C", [20, 21]⟩, pyRound6 (20 / 29)⟩ : ScoredDoc)] else []) =
          some [(⟨⟨"C", [20, 21]⟩, pyRound6 (20 / 29)⟩ : ScoredDoc)]
      rw [if_pos le_rfl]
    rw [top_k_similar_eq _ _ _ _ _ hsc]
    have hsort : sortDesc [⟨⟨"C", [20, 21]⟩, pyRound6 (20 / 29)⟩] =
        [⟨⟨"C", [20, 21]⟩, pyRound6 (20 / 29)⟩] := rfl
    rw [hsort, hround]
    rfl
  · norm_num

/-! ### Concrete-input witnesses for the ranking theorems -/

theorem cosine_unit_unit : cosine_similarity [(1 : ℝ), 0] [(1 : ℝ), 0] = some 1 := by
  have hna : euclidNorm [(1 : ℝ), 0] = 1 :=
    euclidNorm_eq _ 1 (by norm_num) (by norm_num [sumSq, dot])
  rw [cosine_similarity_eval [1, 0] [1, 0] 1 1 hna hna (by norm_num) (by norm_num) rfl]
  norm_num [dot]

theorem cosine_unit_double : cosine_similarity [(1 : ℝ), 0] [(2 : ℝ), 0] = some 1 := by
  have hna : euclidNorm [(1 : ℝ), 0] = 1 :=
    euclidNorm_eq _ 1 (by norm_num) (by norm_num [sumSq, dot])
  have hnb : euclidNorm [(2 : ℝ), 0] = 2 :=
    euclidNorm_eq _ 2 (by norm_num) (by norm_num [sumSq, dot])
  rw [cosine_similarity_eval [1, 0] [2, 0] 1 2 hna hnb (by norm_num) (by norm_num) rfl]
  norm_num [dot]

/-- Witness for C5: a candidate scoring exactly the threshold (`1`) is
retained by the filter. -/
theorem threshold_filter_inclusive_witness :
    ((1 : ℝ) ≤ 1 →
        (⟨⟨"A", [1, 0]⟩, pyRound6 1⟩ : ScoredDoc) ∈
          [(⟨⟨"A", [1, 0]⟩, pyRound6 1⟩ : ScoredDoc)]) ∧
      ((1 : ℝ) < 1 →
        ∀ e ∈ [(⟨⟨"A", [1, 0]⟩, pyRound6 1⟩ : ScoredDoc)], e.doc ≠ ⟨"A", [1, 0]⟩) := by
  have hrun : scoreLoop [(1 : ℝ), 0] 1 [⟨"A", [1, 0]⟩] =
      some [(⟨⟨"A", [1, 0]⟩, pyRound6 1⟩ : ScoredDoc)] := by
    rw [scoreLoop_cons, show (⟨"A", [1, 0]⟩ : Doc).embedding = [1, 0] from rfl,
      cosine_unit_unit]
    show some (if (1 : ℝ) ≤ 1 then [(⟨⟨"A", [1, 0]⟩, pyRound6 1⟩ : ScoredDoc)] else []) =
      some [(⟨⟨"A", [1, 0]⟩, pyRound6 1⟩ : ScoredDoc)]
    rw [if_pos le_rfl]
  exact threshold_filter_inclusive [1, 0] 1 [⟨"A", [1, 0]⟩]
    [⟨⟨"A", [1, 0]⟩, pyRound6 1⟩] hrun ⟨"A", [1, 0]⟩ (by simp) 1 cosine_unit_unit

/-- Witness for C6 at a concrete input (no candidates, `k = 1`). -/
theorem top_k_cap_witness :
    ([] : List ScoredDoc).length ≤ (1 : ℤ).toNat ∧
      (([] : List ScoredDoc).length < (1 : ℤ).toNat →
        ([] : List ScoredDoc).length = ([] : List ScoredDoc).length) :=
  top_k_cap [1] [] 1 0 [] [] (by norm_num) rfl rfl

/-- Witness for C7: a two-entry output is descending. -/
theorem top_k_descending_witness :
    (([(⟨⟨"A", [1, 0]⟩, pyRound6 1⟩ : ScoredDoc),
        ⟨⟨"B", [2, 0]⟩, pyRound6 1⟩]).get ⟨1, by norm_num⟩).score ≤
      (([(⟨⟨"A", [1, 0]⟩, pyRound6 1⟩ : ScoredDoc),
        ⟨⟨"B", [2, 0]⟩, pyRound6 1⟩]).get ⟨0, by norm_num⟩).score := by
  have hsB : scoreLoop [(1 : ℝ), 0] 0 [⟨"B", [2, 0]⟩] =
      some [(⟨⟨"B", [2, 0]⟩, pyRound6 1⟩ : ScoredDoc)] := by
    rw [scoreLoop_cons, show (⟨"B", [2, 0]⟩ : Doc).embedding = [2, 0] from rfl,
      cosine_unit_double]
    show some (if (0 : ℝ) ≤ 1 then [(⟨⟨"B", [2, 0]⟩, pyRound6 1⟩ : ScoredDoc)] else []) =
      some [(⟨⟨"B", [2, 0]⟩, pyRound6 1⟩ : ScoredDoc)]
    rw [if_pos (by norm_num)]
  have hsc : scoreLoop [(1 : ℝ), 0] 0 [⟨"A", [1, 0]⟩, ⟨"B", [2, 0]⟩] =
      some [(⟨⟨"A", [1, 0]⟩, pyRound6 1⟩ : ScoredDoc), ⟨⟨"B", [2, 0]⟩, pyRound6 1⟩] := by
    rw [scoreLoop_cons, show (⟨"A", [1, 0]⟩ : Doc).embedding = [1, 0] from rfl,
      cosine_unit_unit, hsB]
    show some (if (0 : ℝ) ≤ 1 then
        (⟨⟨"A", [1, 0]⟩, pyRound6 1⟩ : ScoredDoc) ::
          [(⟨⟨"B", [2, 0]⟩, pyRound6 1⟩ : ScoredDoc)]
      else [(⟨⟨"B", [2, 0]⟩, pyRound6 1⟩ : ScoredDoc)]) =
      some [(⟨⟨"A", [1, 0]⟩, pyRound6 1⟩ : ScoredDoc), ⟨⟨"B", [2, 0]⟩, pyRound6 1⟩]
    rw [if_pos (by norm_num)]
  have hsort : sortDesc [(⟨⟨"A", [1, 0]⟩, pyRound6 1⟩ : ScoredDoc),
      ⟨⟨"B", [2, 0]⟩, pyRound6 1⟩] =
      [(⟨⟨"A", [1, 0]⟩, pyRound6 1⟩ : ScoredDoc), ⟨⟨"B", [2, 0]⟩, pyRound6 1⟩] := by
    simp [sortDesc, List.insertionSort, List.orderedInsert]
  have hrun : top_k_similar [(1 : ℝ), 0] [⟨"A", [1, 0]⟩, ⟨"B", [2, 0]⟩] 2 0 =
      some [(⟨⟨"A", [1, 0]⟩, pyRound6 1⟩ : ScoredDoc), ⟨⟨"B", [2, 0]⟩, pyRound6 1⟩] := by
    rw [top_k_similar_eq _ _ _ _ _ hsc, hsort]
    rfl
  exact top_k_descending [1, 0] [⟨"A", [1, 0]⟩, ⟨"B", [2, 0]⟩] 2 0 _ hrun 0 1
    (by norm_num) (by norm_num) (by norm_num)

end UniAssist
